import Mathlib

/-!
Verification of `recommendations.py` (internal-link recommendation pipeline).

The development shallowly embeds the program:
* Python strings at the hashing boundary are byte lists (`List Nat`, each
  element a byte value), matching `str.encode("utf-8")`.
* `hashlib.md5` is modelled by a full executable MD5 (RFC 1321) over byte
  lists; `hexdigest` renders 16 digest bytes as 32 lowercase hex characters.
* numpy arrays are `List (List ℚ)`; similarity scores are exact rationals
  (the claims under study are structural, not about float rounding).
* The pickle store file is an explicit `Store` state threaded through the
  cache manager, with a `corrupt` constructor for unreadable payloads.
* The embedding model (`SentenceTransformer.encode`) is a black-box function
  parameter `encode : List String → List (List ℚ)`.
-/

namespace MD5

/-- Truncation to a 32-bit word, `x % 2**32`. -/
def w32 (x : Nat) : Nat := x % 4294967296

/-- Left-rotation of a 32-bit word by `c` bits. -/
def rotl (x c : Nat) : Nat := w32 ((x % 2 ^ (32 - c)) * 2 ^ c + x / 2 ^ (32 - c))

/-- Bitwise NOT of a 32-bit word. -/
def bnot (x : Nat) : Nat := 4294967295 - x

/-- Round function F (rounds 0-15). -/
def fF (b c d : Nat) : Nat := (b &&& c) ||| (bnot b &&& d)

/-- Round function G (rounds 16-31). -/
def fG (b c d : Nat) : Nat := (d &&& b) ||| (bnot d &&& c)

/-- Round function H (rounds 32-47). -/
def fH (b c d : Nat) : Nat := b ^^^ c ^^^ d

/-- Round function I (rounds 48-63). -/
def fI (b c d : Nat) : Nat := c ^^^ (b ||| bnot d)

/-- The 64 sine-derived round constants of MD5. -/
def K : List Nat :=
  [3614090360, 3905402710, 606105819, 3250441966, 4118548399, 1200080426,
   2821735955, 4249261313, 1770035416, 2336552879, 4294925233, 2304563134,
   1804603682, 4254626195, 2792965006, 1236535329, 4129170786, 3225465664,
   643717713, 3921069994, 3593408605, 38016083, 3634488961, 3889429448,
   568446438, 3275163606, 4107603335, 1163531501, 2850285829, 4243563512,
   1735328473, 2368359562, 4294588738, 2272392833, 1839030562, 4259657740,
   2763975236, 1272893353, 4139469664, 3200236656, 681279174, 3936430074,
   3572445317, 76029189, 3654602809, 3873151461, 530742520, 3299628645,
   4096336452, 1126891415, 2878612391, 4237533241, 1700485571, 2399980690,
   4293915773, 2240044497, 1873313359, 4264355552, 2734768916, 1309151649,
   4149444226, 3174756917, 718787259, 3951481745]

/-- The per-round left-rotation amounts of MD5. -/
def S : List Nat :=
  [7, 12, 17, 22, 7, 12, 17, 22, 7, 12, 17, 22, 7, 12, 17, 22,
   5, 9, 14, 20, 5, 9, 14, 20, 5, 9, 14, 20, 5, 9, 14, 20,
   4, 11, 16, 23, 4, 11, 16, 23, 4, 11, 16, 23, 4, 11, 16, 23,
   6, 10, 15, 21, 6, 10, 15, 21, 6, 10, 15, 21, 6, 10, 15, 21]

/-- Message-word index used in round `i`. -/
def gIndex (i : Nat) : Nat :=
  if i < 16 then i
  else if i < 32 then (5 * i + 1) % 16
  else if i < 48 then (3 * i + 5) % 16
  else (7 * i) % 16

/-- Round function selected for round `i`. -/
def mixF (i b c d : Nat) : Nat :=
  if i < 16 then fF b c d
  else if i < 32 then fG b c d
  else if i < 48 then fH b c d
  else fI b c d

/-- Little-endian byte rendering of `x` on `n` bytes. -/
def toLE : Nat → Nat → List Nat
  | 0, _ => []
  | n + 1, x => (x % 256) :: toLE n (x / 256)

/-- Little-endian 32-bit word number `i` of a 64-byte block. -/
def getW (block : List Nat) (i : Nat) : Nat :=
  block.getD (4 * i) 0 + 256 * block.getD (4 * i + 1) 0 +
    65536 * block.getD (4 * i + 2) 0 + 16777216 * block.getD (4 * i + 3) 0

/-- One MD5 round on the running state `(a, b, c, d)`. -/
def roundStep (block : List Nat) (st : Nat × Nat × Nat × Nat) (i : Nat) :
    Nat × Nat × Nat × Nat :=
  let f := w32 (mixF i st.2.1 st.2.2.1 st.2.2.2 + st.1 + K.getD i 0 + getW block (gIndex i))
  (st.2.2.2, w32 (st.2.1 + rotl f (S.getD i 0)), st.2.1, st.2.2.1)

/-- Process one 64-byte block: 64 rounds then the Davies-Meyer addition. -/
def processBlock (st : Nat × Nat × Nat × Nat) (block : List Nat) :
    Nat × Nat × Nat × Nat :=
  let r := (List.range 64).foldl (roundStep block) st
  (w32 (st.1 + r.1), w32 (st.2.1 + r.2.1), w32 (st.2.2.1 + r.2.2.1), w32 (st.2.2.2 + r.2.2.2))

/-- MD5 padding: append `0x80`, zero bytes to 56 mod 64, then the bit length
on 8 little-endian bytes. -/
def padMsg (msg : List Nat) : List Nat :=
  let z := (120 - (msg.length + 1) % 64) % 64
  msg ++ 128 :: List.replicate z 0 ++ toLE 8 (msg.length * 8 % 18446744073709551616)

/-- Fuel-driven worker for `chunks64` (structural recursion so that the
kernel can evaluate it; the fuel is the list length, always sufficient since
`drop 64` strictly shrinks a non-empty list). -/
def chunksAux : Nat → List Nat → List (List Nat)
  | 0, _ => []
  | _, [] => []
  | fuel + 1, l => l.take 64 :: chunksAux fuel (l.drop 64)

/-- Split a byte list into 64-byte chunks. -/
def chunks64 (l : List Nat) : List (List Nat) := chunksAux l.length l

/-- The 16 digest bytes of a byte-list message. -/
def md5Bytes (msg : List Nat) : List Nat :=
  let r := (chunks64 (padMsg msg)).foldl processBlock
    (1732584193, 4023233417, 2562383102, 271733878)
  toLE 4 r.1 ++ toLE 4 r.2.1 ++ toLE 4 r.2.2.1 ++ toLE 4 r.2.2.2

/-- Lowercase hexadecimal digit for a value below 16. -/
def hexChar (n : Nat) : Char := "0123456789abcdef".toList.getD n 'x'

/-- Two lowercase hex characters for one byte. -/
def byteHex (b : Nat) : List Char := [hexChar (b / 16), hexChar (b % 16)]

/-- The `hexdigest()` of a byte-list message: 32 lowercase hex characters. -/
def hexdigest (msg : List Nat) : String := String.mk ((md5Bytes msg).flatMap byteHex)

end MD5

/-- UTF-8 bytes of a Lean string, as natural numbers
(models Python `s.encode("utf-8")`). -/
def strBytes (s : String) : List Nat := s.toUTF8.toList.map (fun b => b.toNat)

/-- The byte stream `dataset_signature` feeds to the MD5 hasher: the model
identifier, then for each zipped `(url, combined_text)` pair a NUL byte, the
URL bytes, a NUL byte, and the text bytes (recommendations.py lines 43-50). -/
def sigStream (model_name : List Nat) (pairs : List (List Nat × List Nat)) : List Nat :=
  model_name ++ pairs.flatMap (fun p => 0 :: (p.1 ++ 0 :: p.2))

/-- `dataset_signature(urls, texts, model_name)` (recommendations.py lines
38-51): MD5 hexdigest of the seeded, NUL-separated stream of zipped pairs. -/
def dataset_signature (urls texts : List (List Nat)) (model_name : List Nat) : String :=
  MD5.hexdigest (sigStream model_name (urls.zip texts))

/-- One raw input row of the articles table. Each field is `Option`al:
`none` models a pandas missing value (NaN). -/
structure Row where
  url : Option String
  title : Option String
  excerpt : Option String
  keywords : Option String
deriving DecidableEq, Repr

/-- A raw pandas DataFrame: its column names and its rows. A row field is
meaningful only when the corresponding column is present. -/
structure RawTable where
  columns : List String
  rows : List Row
deriving DecidableEq, Repr

/-- A document that survived `dropna(subset=["url"])`: its URL is present
(possibly the empty string — pandas `dropna` drops only NaN, not `""`). -/
structure NDoc where
  url : String
  title : Option String
  excerpt : Option String
  keywords : Option String
deriving DecidableEq, Repr

/-- Placeholder document for out-of-range `getD` lookups (never reached on
well-formed indices). -/
def defaultDoc : NDoc := ⟨"", none, none, none⟩

/-- `df.dropna(subset=["url"])` on one row: keep it (as an `NDoc`) exactly
when the URL is not missing. -/
def toNDoc (r : Row) : Option NDoc :=
  r.url.map (fun u => ⟨u, r.title, r.excerpt, r.keywords⟩)

/-- `df.drop_duplicates(subset=["url"])`: keep the first row seen for each
URL (pandas default `keep="first"`), threading the set of URLs seen so far. -/
def dedupAux : List NDoc → List String → List NDoc
  | [], _ => []
  | d :: ds, seen =>
    if d.url ∈ seen then dedupAux ds seen else d :: dedupAux ds (d.url :: seen)

/-- `df.sort_values("url")`: sort ascending by URL (lexicographic on code
points, matching pandas string comparison; the comparison is phrased on
the character lists, which is equivalent to `String` order by
`String.le_iff_toList_le` and lets the kernel evaluate it). -/
def sortByUrl (l : List NDoc) : List NDoc :=
  l.mergeSort (fun a b => decide (a.url.toList ≤ b.url.toList))

/-- Error taxonomy of the pipeline. `schemaError` models the `ValueError`
raised for a malformed input table (the spec calls it `SchemaError`). -/
inductive PipelineError where
  | schemaError (msg : String)
deriving DecidableEq, Repr

/-- `ensure_unique_and_ordered(df)` (recommendations.py lines 17-25): raise
unless a `url` column exists, then drop NaN-URL rows, de-duplicate by URL
keeping the first occurrence, and sort by URL ascending. -/
def ensure_unique_and_ordered (t : RawTable) : Except PipelineError (List NDoc) :=
  if "url" ∉ t.columns then
    .error (.schemaError "Input CSV must contain a 'url' column.")
  else
    .ok (sortByUrl (dedupAux (t.rows.filterMap toNDoc) []))

/-- `str(row.get(field, "") or "")` for a field value: a present string is
kept as is; a missing value (NaN) is truthy in Python, so `or` keeps it and
`str` renders it as `"nan"`. -/
def fieldStr (v : Option String) : String :=
  match v with
  | none => "nan"
  | some s => s

/-- `combine_text(row)` (recommendations.py lines 28-35): trim
title/excerpt/keywords, drop fields that trim to empty, join with `". "`. -/
def combine_text (d : NDoc) : String :=
  let parts := [fieldStr d.title, fieldStr d.excerpt, fieldStr d.keywords]
  String.intercalate ". " ((parts.map String.trim).filter (fun p => p ≠ ""))

/-- The dictionary pickled in `embeddings.pkl`; each field read back with
`payload.get(..., None)`, hence `Option`al. -/
structure Payload where
  embeddings : Option (List (List ℚ))
  signature : Option String
  model : Option String
deriving DecidableEq

/-- The persisted store file: absent, unreadable/corrupt (any
`pickle.load` failure), or a readable payload. -/
inductive Store where
  | absent
  | corrupt
  | present (p : Payload)
deriving DecidableEq

/-- Result of the cache manager: the vectors handed back, the store file
state afterwards, and whether the embedding model was invoked. -/
structure CacheResult where
  emb : List (List ℚ)
  store : Store
  invoked : Bool
deriving DecidableEq

/-- The recompute-and-persist tail of `load_or_build_embeddings`
(recommendations.py lines 78-91): encode the texts, overwrite the store
with the fresh vectors, signature and model name. -/
def rebuildEmbeddings (encode : List String → List (List ℚ))
    (texts : List String) (signature : String) (model_name : String) : CacheResult :=
  let emb := encode texts
  ⟨emb, .present ⟨some emb, some signature, some model_name⟩, true⟩

/-- `load_or_build_embeddings(texts, signature, model_name)`
(recommendations.py lines 54-91): return the stored vectors when the store
is readable and its row count, signature and model all match; otherwise
recompute and overwrite. The black-box embedding model is the parameter
`encode`. -/
def load_or_build_embeddings (encode : List String → List (List ℚ))
    (texts : List String) (signature : String) (model_name : String)
    (store : Store) : CacheResult :=
  match store with
  | .present p =>
    match p.embeddings with
    | some emb =>
      if emb.length = texts.length ∧ p.signature = some signature ∧
          p.model = some model_name then
        ⟨emb, store, false⟩
      else
        rebuildEmbeddings encode texts signature model_name
    | none => rebuildEmbeddings encode texts signature model_name
  | _ => rebuildEmbeddings encode texts signature model_name

/-- Dot product of two vectors (stops at the shorter one, as numpy would
reject mismatched shapes upstream; well-formed inputs have equal length). -/
def dotp : List ℚ → List ℚ → ℚ
  | a :: as, b :: bs => a * b + dotp as bs
  | _, _ => 0

/-- Fuel-driven integer square root search: the largest `k ≤ fuel + start`
with `k * k ≤ n`, counting up from `start`. -/
def natSqrtUp (n : Nat) : Nat → Nat → Nat
  | 0, k => k
  | fuel + 1, k => if (k + 1) * (k + 1) ≤ n then natSqrtUp n fuel (k + 1) else k

/-- Integer square root (exact on perfect squares), by bounded search. -/
def natSqrt (n : Nat) : Nat := natSqrtUp n n 0

/-- Exact square root of a rational that is a perfect square (numerator and
denominator of the reduced form both perfect squares); the concrete inputs
evaluated in this development all have perfect-square norms. -/
def ratSqrt (q : ℚ) : ℚ := (natSqrt q.num.toNat : ℚ) / (natSqrt q.den : ℚ)

/-- Cosine similarity `dot(v, w) / (|v| * |w|)` as computed by
`sklearn.metrics.pairwise.cosine_similarity`. -/
def cosineSim (v w : List ℚ) : ℚ := dotp v w / ratSqrt (dotp v v * dotp w w)

/-- `cosine_similarity(embeddings)`: the full pairwise similarity matrix. -/
def cosineMatrix (vecs : List (List ℚ)) : List (List ℚ) :=
  vecs.map (fun v => vecs.map (fun w => cosineSim v w))

/-- `sim_scores[idx] = -1.0`: mask the self-similarity entry. -/
def maskSelf (row : List ℚ) (i : Nat) : List ℚ := row.set i (-1)

/-- Comparison on index positions used to model `np.argsort`: ascending
score, with exactly equal scores kept in ascending index order. -/
def argLe (xs : List ℚ) (i j : Nat) : Bool :=
  decide (xs.getD i 0 < xs.getD j 0 ∨ (xs.getD i 0 = xs.getD j 0 ∧ i ≤ j))

/-- `np.argsort(sim_scores)`: the indices of the scores in ascending score
order. numpy's default sort is unstable, so its order among exactly equal
scores is unspecified; it is modelled here as the stable ascending argsort
(equal scores keep ascending index order), the canonical determinization. -/
def argsortIdx (xs : List ℚ) : List Nat :=
  (List.range xs.length).mergeSort (argLe xs)

/-- `np.argsort(sim_scores)[-top_k:][::-1]`: the last `k` positions of the
ascending argsort, reversed — the selected targets, best first. -/
def topIndices (xs : List ℚ) (k : Nat) : List Nat :=
  ((argsortIdx xs).drop (xs.length - k)).reverse

/-- One emitted recommendation row
(`source_url, target_url, similarity_score, anchor_text`). -/
structure RecRow where
  source_url : String
  target_url : String
  similarity_score : ℚ
  anchor_text : Option String
deriving DecidableEq, Repr

/-- The body of one iteration of the recommendation loop
(recommendations.py lines 140-156): mask the self entry of the source's
similarity row, take the top-k indices, and emit one row per target. -/
def blockFor (corpus : List NDoc) (simMatrix : List (List ℚ))
    (top_k : Nat) (iu : Nat × NDoc) : List RecRow :=
  let scores := maskSelf (simMatrix.getD iu.1 []) iu.1
  (topIndices scores top_k).map (fun t =>
    { source_url := iu.2.url
      target_url := (corpus.getD t defaultDoc).url
      similarity_score := scores.getD t 0
      anchor_text := (corpus.getD t defaultDoc).title })

/-- The recommendation loop of `main` (recommendations.py lines 137-156):
one block of rows per corpus position. -/
def recommendRows (corpus : List NDoc) (simMatrix : List (List ℚ))
    (top_k : Nat) : List RecRow :=
  corpus.enum.flatMap (blockFor corpus simMatrix top_k)

deriving instance DecidableEq for Except

/-- Observable outcome of a run: the run's result (`.error` means the
exception propagated and no output file was written; `.ok recs` means the
output CSV was written with exactly `recs` as data rows, `[]` being the
header-only table), the store file state afterwards, and whether the
embedding model was invoked. -/
structure RunOut where
  result : Except PipelineError (List RecRow)
  store : Store
  invoked : Bool
deriving DecidableEq

/-- `main()` (recommendations.py lines 94-160) with `MAX_ARTICLES = None`:
normalize (a schema error propagates before anything is written, leaving
the store untouched), build combined texts, emit a header-only table when
fewer than two documents remain, otherwise sign the dataset, load or build
embeddings, re-check the similarity-matrix shape (an `m`-vector store
yields an `m × m` matrix, mismatching `(n, n)` iff `m ≠ n`, which forces a
delete-and-rebuild), and emit the top-k rows. -/
def runMain (encode : List String → List (List ℚ)) (top_K : Nat)
    (model_name : String) (t : RawTable) (store : Store) : RunOut :=
  match ensure_unique_and_ordered t with
  | .error e => ⟨.error e, store, false⟩
  | .ok corpus =>
    let texts := corpus.map combine_text
    if corpus.length < 2 then
      ⟨.ok [], store, false⟩
    else
      let n := corpus.length
      let sig := dataset_signature (corpus.map (fun d => strBytes d.url))
        (texts.map strBytes) (strBytes model_name)
      let r1 := load_or_build_embeddings encode texts sig model_name store
      let r2 := if r1.emb.length ≠ n then
          load_or_build_embeddings encode texts sig model_name .absent
        else r1
      let simM := cosineMatrix r2.emb
      let top_k := max 1 (min top_K (n - 1))
      ⟨.ok (recommendRows corpus simM top_k), r2.store,
        r1.invoked || decide (r1.emb.length ≠ n)⟩

/-- The source's configured `TOP_K`. -/
def TOP_K : Nat := 8

/-- The source's configured `MODEL_NAME`. -/
def MODEL_NAME : String := "all-MiniLM-L6-v2"

/-- Strict URL order, weakened reflexively (used only to transport
sortedness through `List.eq_of_perm_of_sorted`). -/
def urlLtOrEq (a b : NDoc) : Prop := a.url < b.url ∨ a = b

instance : IsAntisymm NDoc urlLtOrEq := by
  constructor
  rintro a b (hab | rfl) (hba | hba)
  · exact absurd hba (lt_asymm hab)
  · exact hba.symm
  · rfl
  · rfl

/-- The signature `main` computes for a corpus
(`dataset_signature(df["url"], df["combined_text"], MODEL_NAME)`). -/
def pipelineSig (corpus : List NDoc) (model_name : String) : String :=
  dataset_signature (corpus.map (fun d => strBytes d.url))
    ((corpus.map combine_text).map strBytes) (strBytes model_name)

set_option maxRecDepth 4096

-- RFC 1321 test vectors, checking the MD5 model itself.
example : MD5.hexdigest [] = "d41d8cd98f00b204e9800998ecf8427e" := by decide
example : MD5.hexdigest [97, 98, 99] = "900150983cd24fb0d6963f7d28e17f72" := by decide

-- The concrete signature of a one-pair dataset, cross-checked against the
-- Python implementation.
example :
    dataset_signature [[97, 98]] [[99]] [109] = "4fe0aa1659cc73e170d855905644ae47" := by
  decide

/-- C1 (cache hit): when the store file is present, deserializes to a
payload whose embeddings have one row per corpus text and whose signature
and model identifier equal the given ones, `load_or_build_embeddings`
returns the stored vectors unchanged, does not invoke the embedding model,
and leaves the persisted store as it was. -/
theorem load_or_build_cache_hit
    (encode : List String → List (List ℚ)) (texts : List String)
    (sig model_name : String) (p : Payload) (emb : List (List ℚ))
    (hemb : p.embeddings = some emb) (hlen : emb.length = texts.length)
    (hsig : p.signature = some sig) (hmdl : p.model = some model_name) :
    load_or_build_embeddings encode texts sig model_name (.present p) =
      ⟨emb, .present p, false⟩ := by
  simp [load_or_build_embeddings, hemb, hlen, hsig, hmdl]

/-- Witness for C1 at a concrete matching store. -/
theorem load_or_build_cache_hit_witness :
    (Payload.mk (some [[1], [2]]) (some "s") (some "m")).embeddings = some [[1], [2]] ∧
    load_or_build_embeddings (fun ts => ts.map (fun _ => [0])) ["a", "b"] "s" "m"
        (.present ⟨some [[1], [2]], some "s", some "m"⟩) =
      ⟨[[1], [2]], .present ⟨some [[1], [2]], some "s", some "m"⟩, false⟩ :=
  ⟨rfl, load_or_build_cache_hit _ _ _ _ _ _ rfl rfl rfl rfl⟩

/-- C2 (cache invalidation and recovery): when the store is absent,
corrupt, or present but mismatching (no readable embeddings, wrong row
count, wrong signature, or wrong model), `load_or_build_embeddings`
invokes the model on the ordered text sequence, overwrites the store with
the fresh vectors, signature and model identifier, and returns the fresh
vectors; no error escapes (the function is total). -/
theorem load_or_build_rebuild
    (encode : List String → List (List ℚ)) (texts : List String)
    (sig model_name : String) (store : Store)
    (h : ∀ p emb, store = Store.present p → p.embeddings = some emb →
      ¬(emb.length = texts.length ∧ p.signature = some sig ∧
        p.model = some model_name)) :
    load_or_build_embeddings encode texts sig model_name store =
      ⟨encode texts, .present ⟨some (encode texts), some sig, some model_name⟩,
        true⟩ := by
  cases store with
  | absent => rfl
  | corrupt => rfl
  | present p =>
    cases hemb : p.embeddings with
    | none => simp [load_or_build_embeddings, hemb, rebuildEmbeddings]
    | some emb =>
      simp [load_or_build_embeddings, hemb, rebuildEmbeddings,
        h p emb rfl hemb]

/-- Witness for C2 at a concrete corrupt store. -/
theorem load_or_build_rebuild_witness :
    load_or_build_embeddings (fun ts => ts.map (fun _ => [1])) ["x", "y"]
        "s" "m" .corrupt =
      ⟨[[1], [1]], .present ⟨some [[1], [1]], some "s", some "m"⟩, true⟩ :=
  load_or_build_rebuild _ _ _ _ _ (fun _ _ hp _ => by cases hp)

/-- C3 counterexample: two distinct pair sequences (strings containing NUL
bytes) feed the exact same byte stream to the hasher, hence the same
signature — the NUL separators do not make the encoding injective on
arbitrary byte strings. -/
theorem sigStream_nul_collision :
    sigStream [109] [([97, 0, 98], [99])] = sigStream [109] [([97], [98, 0, 99])] ∧
    ([([97, 0, 98], [99])] : List (List Nat × List Nat)) ≠ [([97], [98, 0, 99])] ∧
    dataset_signature [[97, 0, 98]] [[99]] [109] =
      dataset_signature [[97]] [[98, 0, 99]] [109] :=
  ⟨by decide, by decide, by decide⟩

/-- C4 failing input: two documents whose embeddings are antipodal unit
vectors have cosine similarity exactly -1, equal to the self-mask sentinel;
the run then emits the row ("b", "b") — a self-pair, contradicting the
self-exclusion property (the sentinel is not strictly below every valid
similarity). -/
theorem self_pair_emitted_on_antipodal_vectors :
    cosineSim [1] [-1] = -1 ∧
    (runMain (fun _ => [[1], [-1]]) TOP_K MODEL_NAME
        ⟨["url", "title"],
          [⟨some "a", some "ta", none, none⟩, ⟨some "b", some "tb", none, none⟩]⟩
        .absent).result.map
        (fun recs => recs.map (fun r => (r.source_url, r.target_url))) =
      .ok [("a", "b"), ("b", "b")] :=
  ⟨by with_unfolding_all decide, by with_unfolding_all decide⟩

/-- C5 counterexample: with two targets tied at score 0, the emitted order
for source "a" is ("c", then "b") — descending target URL — although
"b" < "c"; ties do not come out in ascending target URL order. -/
theorem tie_break_not_ascending_counterexample :
    (runMain (fun _ => [[1, 0], [0, 1], [0, 1]]) 2 "m"
        ⟨["url"],
          [⟨some "a", none, none, none⟩, ⟨some "b", none, none, none⟩,
            ⟨some "c", none, none, none⟩]⟩ .absent).result.map
        (fun recs => (recs.take 2).map
          (fun r => (r.source_url, r.target_url, r.similarity_score))) =
      .ok [("a", "c", 0), ("a", "b", 0)] ∧ ("b" : String) < "c" :=
  ⟨by with_unfolding_all decide, by rw [String.lt_iff_toList_lt]; decide⟩

/-- C8 counterexample: a row whose URL is the empty string (not NaN)
survives normalization — `dropna` removes only missing values, so the
normalized corpus can contain an empty URL. -/
theorem empty_url_retained :
    ensure_unique_and_ordered ⟨["url"], [⟨some "", some "t", none, none⟩]⟩ =
      .ok [⟨"", some "t", none, none⟩] ∧
    (NDoc.mk "" (some "t") none none).url = "" :=
  ⟨by with_unfolding_all decide, rfl⟩

/-- The `sort_values` model agrees with `String` order: the Boolean
comparator used in `sortByUrl` decides exactly `a.url ≤ b.url`. -/
theorem sortByUrl_le_iff (a b : NDoc) :
    (decide (a.url.toList ≤ b.url.toList) = true) ↔ a.url ≤ b.url := by
  rw [decide_eq_true_iff, String.le_iff_toList_le]

/-- Every document kept by the de-duplication pass occurs in its input. -/
theorem dedupAux_subset (l : List NDoc) :
    ∀ seen, dedupAux l seen ⊆ l := by
  induction l with
  | nil => intro seen; simp [dedupAux]
  | cons x xs ih =>
    intro seen d hd
    rw [dedupAux] at hd
    by_cases hx : x.url ∈ seen
    · rw [if_pos hx] at hd
      exact List.mem_cons_of_mem x (ih seen hd)
    · rw [if_neg hx] at hd
      rcases List.mem_cons.mp hd with hd | hd
      · exact hd ▸ List.mem_cons_self x xs
      · exact List.mem_cons_of_mem x (ih (x.url :: seen) hd)

/-- A document kept by de-duplication is the first input occurrence of its
URL, and its URL was not seen before. -/
theorem dedupAux_find (l : List NDoc) :
    ∀ seen d, d ∈ dedupAux l seen →
      l.find? (fun x => x.url == d.url) = some d ∧ d.url ∉ seen := by
  induction l with
  | nil => intro seen d h; simp [dedupAux] at h
  | cons x xs ih =>
    intro seen d h
    rw [dedupAux] at h
    by_cases hx : x.url ∈ seen
    · rw [if_pos hx] at h
      obtain ⟨hfind, hseen⟩ := ih seen d h
      have hne : ¬(x.url == d.url) = true := by
        simp only [beq_iff_eq]
        exact fun he => hseen (he ▸ hx)
      exact ⟨(List.find?_cons_of_neg (p := fun y => y.url == d.url) xs hne).trans hfind, hseen⟩
    · rw [if_neg hx] at h
      rcases List.mem_cons.mp h with h | h
      · subst h
        exact ⟨List.find?_cons_of_pos (p := fun y => y.url == d.url) xs (by simp), hx⟩
      · obtain ⟨hfind, hseen⟩ := ih (x.url :: seen) d h
        have hne : d.url ≠ x.url := fun he => hseen (by simp [he])
        have hne2 : ¬(x.url == d.url) = true := by
          simp only [beq_iff_eq]; exact fun he => hne he.symm
        exact ⟨(List.find?_cons_of_neg (p := fun y => y.url == d.url) xs hne2).trans hfind,
          fun hs => hseen (List.mem_cons_of_mem _ hs)⟩

/-- Every unseen URL present in the input survives de-duplication. -/
theorem dedupAux_covers (l : List NDoc) :
    ∀ seen x, x ∈ l → x.url ∉ seen →
      ∃ d ∈ dedupAux l seen, d.url = x.url := by
  induction l with
  | nil => intro _ _ h; simp at h
  | cons y ys ih =>
    intro seen x hx hunseen
    rw [dedupAux]
    by_cases hy : y.url ∈ seen
    · rw [if_pos hy]
      rcases List.mem_cons.mp hx with hx | hx
      · exact absurd (hx ▸ hy) hunseen
      · exact ih seen x hx hunseen
    · rw [if_neg hy]
      by_cases hxy : x.url = y.url
      · exact ⟨y, List.mem_cons_self _ _, hxy.symm⟩
      · rcases List.mem_cons.mp hx with hx | hx
        · exact absurd (hx ▸ rfl) hxy
        · obtain ⟨d, hd, hdu⟩ := ih (y.url :: seen) x hx
            (by simp [hxy, hunseen])
          exact ⟨d, List.mem_cons_of_mem _ hd, hdu⟩

/-- De-duplication produces pairwise distinct URLs, none of them seen
before. -/
theorem dedupAux_nodup (l : List NDoc) :
    ∀ seen, ((dedupAux l seen).map NDoc.url).Nodup ∧
      ∀ d ∈ dedupAux l seen, d.url ∉ seen := by
  induction l with
  | nil => intro seen; simp [dedupAux]
  | cons x xs ih =>
    intro seen
    rw [dedupAux]
    by_cases hx : x.url ∈ seen
    · rw [if_pos hx]; exact ih seen
    · rw [if_neg hx]
      obtain ⟨hnd, hout⟩ := ih (x.url :: seen)
      refine ⟨?_, ?_⟩
      · simp only [List.map_cons, List.nodup_cons]
        refine ⟨?_, hnd⟩
        intro hmem
        obtain ⟨d, hd, hdu⟩ := List.mem_map.mp hmem
        exact hout d hd (by simp [hdu])
      · intro d hd
        rcases List.mem_cons.mp hd with hd | hd
        · exact hd ▸ hx
        · exact fun hs => hout d hd (List.mem_cons_of_mem _ hs)

/-- `sortByUrl` permutes its input. -/
theorem sortByUrl_perm (l : List NDoc) : (sortByUrl l).Perm l :=
  List.mergeSort_perm l _

/-- `sortByUrl` sorts by URL ascending. -/
theorem sortByUrl_sorted (l : List NDoc) :
    (sortByUrl l).Pairwise (fun a b => a.url ≤ b.url) := by
  have h := @List.sorted_mergeSort NDoc
    (fun a b : NDoc => decide (a.url.toList ≤ b.url.toList))
    (fun a b c hab hbc => by
      rw [sortByUrl_le_iff] at hab hbc ⊢
      exact le_trans hab hbc)
    (fun a b => by
      rcases le_total a.url b.url with h | h
      · rw [Bool.or_eq_true]; exact Or.inl ((sortByUrl_le_iff a b).mpr h)
      · rw [Bool.or_eq_true]; exact Or.inr ((sortByUrl_le_iff b a).mpr h))
    l
  exact h.imp (fun {a b} hab => (sortByUrl_le_iff a b).mp hab)

/-- Shape of a successful normalization: the `url` column is present and
the corpus is the sorted de-duplication of the NaN-filtered rows. -/
theorem normalize_ok_elim (t : RawTable) (corpus : List NDoc)
    (hok : ensure_unique_and_ordered t = .ok corpus) :
    "url" ∈ t.columns ∧
      corpus = sortByUrl (dedupAux (t.rows.filterMap toNDoc) []) := by
  by_cases h : "url" ∈ t.columns
  · refine ⟨h, ?_⟩
    rw [ensure_unique_and_ordered, if_neg (by simpa using h)] at hok
    exact (Except.ok.injEq _ _).mp hok.symm |>.symm ▸ rfl
  · rw [ensure_unique_and_ordered, if_pos h] at hok
    cases hok

/-- The URLs of a normalized corpus are pairwise distinct. -/
theorem normalized_nodup (t : RawTable) (corpus : List NDoc)
    (hok : ensure_unique_and_ordered t = .ok corpus) :
    (corpus.map NDoc.url).Nodup := by
  obtain ⟨-, hc⟩ := normalize_ok_elim t corpus hok
  have hperm := (sortByUrl_perm (dedupAux (t.rows.filterMap toNDoc) [])).map NDoc.url
  rw [hc]
  exact hperm.nodup_iff.mpr (dedupAux_nodup (t.rows.filterMap toNDoc) []).1

/-- A normalized corpus is sorted by URL ascending. -/
theorem normalized_sorted (t : RawTable) (corpus : List NDoc)
    (hok : ensure_unique_and_ordered t = .ok corpus) :
    corpus.Pairwise (fun a b => a.url ≤ b.url) := by
  obtain ⟨-, hc⟩ := normalize_ok_elim t corpus hok
  exact hc ▸ sortByUrl_sorted _

/-- A normalized corpus is strictly sorted by URL. -/
theorem normalized_strict_sorted (t : RawTable) (corpus : List NDoc)
    (hok : ensure_unique_and_ordered t = .ok corpus) :
    corpus.Pairwise (fun a b => a.url < b.url) := by
  have hle := normalized_sorted t corpus hok
  have hne : corpus.Pairwise (fun a b : NDoc => a.url ≠ b.url) :=
    List.pairwise_map.mp (normalized_nodup t corpus hok)
  exact (hle.and hne).imp (fun {a b} h => lt_of_le_of_ne h.1 h.2)

/-- C9 (schema error): normalization fails exactly when the `url` column is
absent from the table schema (missing values alone never raise), and in
that case the run surfaces the error with no recommendation output written
and the persisted store untouched (and no model invocation). -/
theorem schema_error_iff_missing_url_column
    (encode : List String → List (List ℚ)) (top_K : Nat) (model_name : String)
    (t : RawTable) (store : Store) :
    ((∃ e, ensure_unique_and_ordered t = .error e) ↔ "url" ∉ t.columns) ∧
    ("url" ∉ t.columns →
      runMain encode top_K model_name t store =
        ⟨.error (.schemaError "Input CSV must contain a 'url' column."),
          store, false⟩) := by
  constructor
  · constructor
    · rintro ⟨e, he⟩ hmem
      rw [ensure_unique_and_ordered, if_neg (by simpa using hmem)] at he
      cases he
    · intro h
      exact ⟨_, by rw [ensure_unique_and_ordered, if_pos h]⟩
  · intro h
    simp only [runMain, ensure_unique_and_ordered, if_pos h]

/-- Witness for C9 at a concrete table with no `url` column. -/
theorem schema_error_iff_missing_url_column_witness :
    ("url" ∉ (RawTable.mk ["title"] []).columns) ∧
    runMain (fun _ => []) 8 "m" ⟨["title"], []⟩ .absent =
      ⟨.error (.schemaError "Input CSV must contain a 'url' column."),
        .absent, false⟩ :=
  ⟨by decide,
    (schema_error_iff_missing_url_column (fun _ => []) 8 "m"
      ⟨["title"], []⟩ .absent).2 (by decide)⟩

/-- C10 (de-duplication policy): every normalized document is exactly the
first occurrence, in original pre-sort input order, of its URL among the
NaN-filtered rows — so that occurrence's title/excerpt/keywords are the
ones that reach the rest of the pipeline — and every URL that survives the
NaN filter is represented in the corpus. -/
theorem dedup_keeps_first_occurrence (t : RawTable) (corpus : List NDoc)
    (hok : ensure_unique_and_ordered t = .ok corpus) :
    (∀ d ∈ corpus,
      (t.rows.filterMap toNDoc).find? (fun x => x.url == d.url) = some d) ∧
    (∀ x ∈ t.rows.filterMap toNDoc, ∃ d ∈ corpus, d.url = x.url) := by
  obtain ⟨-, hc⟩ := normalize_ok_elim t corpus hok
  constructor
  · intro d hd
    rw [hc] at hd
    exact (dedupAux_find _ [] d ((sortByUrl_perm _).mem_iff.mp hd)).1
  · intro x hx
    obtain ⟨d, hd, hdu⟩ := dedupAux_covers _ [] x hx (by simp)
    refine ⟨d, ?_, hdu⟩
    rw [hc]
    exact (sortByUrl_perm _).mem_iff.mpr hd

/-- Witness for C10 on a table with a duplicated URL: the kept record for
url "b" is the first occurrence (title "B1"), found before the sort. -/
theorem dedup_keeps_first_occurrence_witness :
    ensure_unique_and_ordered
        ⟨["url", "title"],
          [⟨some "b", some "B1", none, none⟩, ⟨some "a", none, none, none⟩,
            ⟨some "b", some "B2", none, none⟩]⟩ =
      .ok [⟨"a", none, none, none⟩, ⟨"b", some "B1", none, none⟩] ∧
    (∀ d ∈ [(⟨"a", none, none, none⟩ : NDoc), ⟨"b", some "B1", none, none⟩],
      (((RawTable.mk ["url", "title"]
          [⟨some "b", some "B1", none, none⟩, ⟨some "a", none, none, none⟩,
            ⟨some "b", some "B2", none, none⟩]).rows.filterMap toNDoc).find?
        (fun x => x.url == d.url)) = some d) :=
  ⟨by with_unfolding_all decide,
    (dedup_keeps_first_occurrence _ _ (by with_unfolding_all decide)).1⟩

/-- C8 amended (normalizer postcondition): given the `url` column, every
normalized document's URL stems from a row where the URL value was present
(not NaN), the URLs are pairwise distinct, and the corpus is sorted by URL
ascending. (The claim's additional "no empty URL" clause fails on the
code — `dropna` keeps empty strings — see the counterexample.) -/
theorem normalize_postcondition (t : RawTable) (corpus : List NDoc)
    (hok : ensure_unique_and_ordered t = .ok corpus) :
    (∀ d ∈ corpus, ∃ r ∈ t.rows, r.url = some d.url) ∧
    (corpus.map NDoc.url).Nodup ∧
    corpus.Pairwise (fun a b => a.url ≤ b.url) := by
  refine ⟨?_, normalized_nodup t corpus hok, normalized_sorted t corpus hok⟩
  intro d hd
  obtain ⟨-, hc⟩ := normalize_ok_elim t corpus hok
  rw [hc] at hd
  have hd3 : d ∈ t.rows.filterMap toNDoc :=
    dedupAux_subset _ [] ((sortByUrl_perm _).mem_iff.mp hd)
  obtain ⟨r, hr, hrd⟩ := List.mem_filterMap.mp hd3
  refine ⟨r, hr, ?_⟩
  unfold toNDoc at hrd
  cases hu : r.url with
  | none => rw [hu] at hrd; cases hrd
  | some u =>
    rw [hu] at hrd
    simp only [Option.map_some'] at hrd
    cases Option.some.inj hrd
    rfl

/-- Witness for C8 (amended) at a concrete two-row table. -/
theorem normalize_postcondition_witness :
    ensure_unique_and_ordered
        ⟨["url"], [⟨some "b", none, none, none⟩, ⟨some "a", none, none, none⟩]⟩ =
      .ok [⟨"a", none, none, none⟩, ⟨"b", none, none, none⟩] ∧
    (([(⟨"a", none, none, none⟩ : NDoc), ⟨"b", none, none, none⟩].map
      NDoc.url).Nodup ∧
    List.Pairwise (fun a b : NDoc => a.url ≤ b.url)
      [⟨"a", none, none, none⟩, ⟨"b", none, none, none⟩]) :=
  ⟨by with_unfolding_all decide,
    (normalize_postcondition
      ⟨["url"], [⟨some "b", none, none, none⟩, ⟨some "a", none, none, none⟩]⟩
      [⟨"a", none, none, none⟩, ⟨"b", none, none, none⟩]
      (by with_unfolding_all decide)).2.1,
    (normalize_postcondition
      ⟨["url"], [⟨some "b", none, none, none⟩, ⟨some "a", none, none, none⟩]⟩
      [⟨"a", none, none, none⟩, ⟨"b", none, none, none⟩]
      (by with_unfolding_all decide)).2.2⟩

/-- When equal URLs imply equal records, de-duplication preserves
membership exactly. -/
theorem dedupAux_mem_iff (l : List NDoc)
    (hfun : ∀ a ∈ l, ∀ b ∈ l, a.url = b.url → a = b) :
    ∀ d, d ∈ dedupAux l [] ↔ d ∈ l := by
  intro d
  constructor
  · exact fun h => dedupAux_subset l [] h
  · intro hd
    obtain ⟨e, he, heu⟩ := dedupAux_covers l [] d hd (by simp)
    exact hfun e (dedupAux_subset l [] he) d hd heu ▸ he

/-- The sorted de-duplication of any document list is strictly sorted by
URL. -/
theorem sortdedup_strict_sorted (l : List NDoc) :
    (sortByUrl (dedupAux l [])).Pairwise (fun a b => a.url < b.url) := by
  have hle := sortByUrl_sorted (dedupAux l [])
  have hnd : ((sortByUrl (dedupAux l [])).map NDoc.url).Nodup :=
    (((sortByUrl_perm (dedupAux l [])).map NDoc.url).nodup_iff).mpr
      (dedupAux_nodup l []).1
  have hne : (sortByUrl (dedupAux l [])).Pairwise
      (fun a b : NDoc => a.url ≠ b.url) := List.pairwise_map.mp hnd
  exact (hle.and hne).imp (fun {a b} h => lt_of_le_of_ne h.1 h.2)

/-- Two lists strictly sorted by URL with the same members are equal. -/
theorem strict_sorted_ext (l1 l2 : List NDoc)
    (h1 : l1.Pairwise (fun a b => a.url < b.url))
    (h2 : l2.Pairwise (fun a b => a.url < b.url))
    (hmem : ∀ d, d ∈ l1 ↔ d ∈ l2) : l1 = l2 := by
  have hn1 : l1.Nodup := h1.imp (fun {a b} h he => absurd (he ▸ h) (lt_irrefl _))
  have hn2 : l2.Nodup := h2.imp (fun {a b} h he => absurd (he ▸ h) (lt_irrefl _))
  exact List.eq_of_perm_of_sorted (r := urlLtOrEq)
    ((List.perm_ext_iff_of_nodup hn1 hn2).mpr hmem)
    (h1.imp (fun {a b} h => Or.inl h)) (h2.imp (fun {a b} h => Or.inl h))

/-- Core of order invariance: permuted rows with URL-determined records
normalize identically. -/
theorem normalize_eq_of_perm (t1 t2 : RawTable)
    (hc1 : "url" ∈ t1.columns) (hc2 : "url" ∈ t2.columns)
    (hperm : t1.rows.Perm t2.rows)
    (hfun : ∀ a ∈ t1.rows.filterMap toNDoc, ∀ b ∈ t1.rows.filterMap toNDoc,
      a.url = b.url → a = b) :
    ensure_unique_and_ordered t1 = ensure_unique_and_ordered t2 := by
  have hp : (t1.rows.filterMap toNDoc).Perm (t2.rows.filterMap toNDoc) :=
    hperm.filterMap toNDoc
  have hfun2 : ∀ a ∈ t2.rows.filterMap toNDoc, ∀ b ∈ t2.rows.filterMap toNDoc,
      a.url = b.url → a = b :=
    fun a ha b hb he =>
      hfun a (hp.mem_iff.mpr ha) b (hp.mem_iff.mpr hb) he
  rw [ensure_unique_and_ordered, ensure_unique_and_ordered,
    if_neg (not_not_intro hc1), if_neg (not_not_intro hc2)]
  congr 1
  apply strict_sorted_ext _ _ (sortdedup_strict_sorted _) (sortdedup_strict_sorted _)
  intro d
  rw [(sortByUrl_perm _).mem_iff, (sortByUrl_perm _).mem_iff,
    dedupAux_mem_iff _ hfun d, dedupAux_mem_iff _ hfun2 d]
  exact hp.mem_iff

/-- C7 (order invariance): two raw tables with a `url` column holding the
same document records (rows permuted, and any two kept records with equal
URL fully equal) normalize identically, hence produce the same dataset
signature and the same run outcome (same recommendation rows). -/
theorem order_invariance
    (encode : List String → List (List ℚ)) (top_K : Nat) (model_name : String)
    (store : Store) (t1 t2 : RawTable)
    (hc1 : "url" ∈ t1.columns) (hc2 : "url" ∈ t2.columns)
    (hperm : t1.rows.Perm t2.rows)
    (hfun : ∀ a ∈ t1.rows.filterMap toNDoc, ∀ b ∈ t1.rows.filterMap toNDoc,
      a.url = b.url → a = b) :
    ensure_unique_and_ordered t1 = ensure_unique_and_ordered t2 ∧
    runMain encode top_K model_name t1 store =
      runMain encode top_K model_name t2 store ∧
    (ensure_unique_and_ordered t1).map (fun c =>
        dataset_signature (c.map (fun d => strBytes d.url))
          ((c.map combine_text).map strBytes) (strBytes model_name)) =
      (ensure_unique_and_ordered t2).map (fun c =>
        dataset_signature (c.map (fun d => strBytes d.url))
          ((c.map combine_text).map strBytes) (strBytes model_name)) := by
  have h := normalize_eq_of_perm t1 t2 hc1 hc2 hperm hfun
  refine ⟨h, ?_, by rw [h]⟩
  simp only [runMain, h]

/-- Witness for C7: the same two documents in both discovery orders yield
the same run outcome. -/
theorem order_invariance_witness :
    (("url" ∈ (RawTable.mk ["url"]
        [⟨some "a", some "A", none, none⟩, ⟨some "b", some "B", none, none⟩]).columns) ∧
      (RawTable.mk ["url"]
        [⟨some "a", some "A", none, none⟩, ⟨some "b", some "B", none, none⟩]).rows.Perm
        (RawTable.mk ["url"]
          [⟨some "b", some "B", none, none⟩, ⟨some "a", some "A", none, none⟩]).rows) ∧
    runMain (fun _ => [[1], [1]]) 8 "m"
        ⟨["url"], [⟨some "a", some "A", none, none⟩, ⟨some "b", some "B", none, none⟩]⟩
        .absent =
      runMain (fun _ => [[1], [1]]) 8 "m"
        ⟨["url"], [⟨some "b", some "B", none, none⟩, ⟨some "a", some "A", none, none⟩]⟩
        .absent :=
  ⟨⟨by decide, List.Perm.swap _ _ _⟩,
    (order_invariance (fun _ => [[1], [1]]) 8 "m" .absent
      ⟨["url"], [⟨some "a", some "A", none, none⟩, ⟨some "b", some "B", none, none⟩]⟩
      ⟨["url"], [⟨some "b", some "B", none, none⟩, ⟨some "a", some "A", none, none⟩]⟩
      (by decide) (by decide) (List.Perm.swap _ _ _)
      (by with_unfolding_all decide)).2.1⟩

/-- Under the model contract (one vector per text), the cache manager
always hands back one vector per text. -/
theorem load_or_build_emb_length
    (encode : List String → List (List ℚ)) (texts : List String)
    (sig model_name : String) (store : Store)
    (henc : ∀ ts, (encode ts).length = ts.length) :
    (load_or_build_embeddings encode texts sig model_name store).emb.length =
      texts.length := by
  cases store with
  | absent => simpa [load_or_build_embeddings, rebuildEmbeddings] using henc texts
  | corrupt => simpa [load_or_build_embeddings, rebuildEmbeddings] using henc texts
  | present p =>
    cases hemb : p.embeddings with
    | none =>
      simpa [load_or_build_embeddings, hemb, rebuildEmbeddings] using henc texts
    | some emb =>
      by_cases hcond : emb.length = texts.length ∧ p.signature = some sig ∧
          p.model = some model_name
      · rw [load_or_build_embeddings]
        simp only [hemb, if_pos hcond]
        exact hcond.1
      · rw [load_or_build_embeddings]
        simp only [hemb, if_neg hcond, rebuildEmbeddings]
        exact henc texts

/-- Each row of the cosine similarity matrix has one entry per vector. -/
theorem cosineMatrix_row_length (v : List (List ℚ)) (i : Nat) (h : i < v.length) :
    ((cosineMatrix v).getD i []).length = v.length := by
  rw [cosineMatrix, List.getD_eq_getElem _ _ (by simpa using h), List.getElem_map]
  exact List.length_map _ _

/-- The argsort of a score list permutes the index range. -/
theorem argsortIdx_perm (xs : List ℚ) :
    (argsortIdx xs).Perm (List.range xs.length) :=
  List.mergeSort_perm _ _

/-- The argsort has one entry per score. -/
theorem argsortIdx_length (xs : List ℚ) : (argsortIdx xs).length = xs.length := by
  rw [(argsortIdx_perm xs).length_eq, List.length_range]

/-- `argsort[-k:][::-1]` selects `min k n` indices. -/
theorem topIndices_length (xs : List ℚ) (k : Nat) :
    (topIndices xs k).length = min k xs.length := by
  rw [topIndices, List.length_reverse, List.length_drop, argsortIdx_length]
  omega

/-- Each loop iteration emits `min top_k n` rows, `n` being the length of
the source's similarity row. -/
theorem blockFor_length (corpus : List NDoc) (simM : List (List ℚ))
    (top_k : Nat) (iu : Nat × NDoc) :
    (blockFor corpus simM top_k iu).length =
      min top_k ((simM.getD iu.1 []).length) := by
  simp [blockFor, topIndices_length, maskSelf]

/-- Every row of a loop iteration carries that iteration's source URL. -/
theorem blockFor_source (corpus : List NDoc) (simM : List (List ℚ))
    (top_k : Nat) (iu : Nat × NDoc) :
    ∀ r ∈ blockFor corpus simM top_k iu, r.source_url = iu.2.url := by
  intro r hr
  simp only [blockFor, List.mem_map] at hr
  obtain ⟨t, -, rfl⟩ := hr
  rfl

/-- Counting lemma: in a flatMap of per-source blocks of uniform length
over sources with pairwise distinct URLs, filtering by one present URL
keeps exactly one block. -/
theorem flatMap_filter_source_count (f : Nat × NDoc → List RecRow)
    (u : String) (c : Nat) :
    ∀ l : List (Nat × NDoc),
      (∀ a ∈ l, (f a).length = c) →
      (∀ a ∈ l, ∀ r ∈ f a, r.source_url = a.2.url) →
      (l.map (fun a => a.2.url)).Nodup →
      u ∈ l.map (fun a => a.2.url) →
      ((l.flatMap f).filter (fun r => r.source_url == u)).length = c := by
  intro l
  induction l with
  | nil => intro _ _ _ hmem; simp at hmem
  | cons a l ih =>
    intro hlen hsrc hnodup hmem
    rw [List.flatMap_cons, List.filter_append, List.length_append]
    simp only [List.map_cons, List.nodup_cons] at hnodup
    rw [List.map_cons] at hmem
    rcases List.mem_cons.mp hmem with hu | hu
    · have h1 : (f a).filter (fun r => r.source_url == u) = f a :=
        List.filter_eq_self.mpr (fun r hr => by
          rw [beq_iff_eq, hsrc a (List.mem_cons_self _ _) r hr, hu])
      have h2 : (l.flatMap f).filter (fun r => r.source_url == u) = [] := by
        rw [List.filter_eq_nil_iff]
        intro r hr
        obtain ⟨b, hb, hrb⟩ := List.mem_flatMap.mp hr
        rw [beq_iff_eq, hsrc b (List.mem_cons_of_mem _ hb) r hrb]
        intro he
        exact hnodup.1 (hu ▸ he ▸ List.mem_map_of_mem (fun a => a.2.url) hb)
      rw [h1, h2, hlen a (List.mem_cons_self _ _)]
      simp
    · have hne : a.2.url ≠ u := fun he =>
        hnodup.1 (he ▸ hu)
      have h1 : (f a).filter (fun r => r.source_url == u) = [] := by
        rw [List.filter_eq_nil_iff]
        intro r hr
        rw [beq_iff_eq, hsrc a (List.mem_cons_self _ _) r hr]
        exact hne
      rw [h1]
      simp only [List.length_nil, Nat.zero_add]
      exact ih (fun b hb => hlen b (List.mem_cons_of_mem _ hb))
        (fun b hb => hsrc b (List.mem_cons_of_mem _ hb)) hnodup.2 hu

/-- Unfolding of a successful, non-degenerate run whose embeddings have one
row per document: no shape-mismatch rebuild happens, and the rows are the
top-k blocks over the cosine matrix. -/
theorem runMain_ok_unfold
    (encode : List String → List (List ℚ)) (top_K : Nat) (model_name : String)
    (t : RawTable) (store : Store) (corpus : List NDoc)
    (hok : ensure_unique_and_ordered t = .ok corpus)
    (h2 : ¬ corpus.length < 2)
    (hlen : (load_or_build_embeddings encode (corpus.map combine_text)
        (pipelineSig corpus model_name) model_name store).emb.length =
      corpus.length) :
    runMain encode top_K model_name t store =
      ⟨.ok (recommendRows corpus
          (cosineMatrix (load_or_build_embeddings encode (corpus.map combine_text)
            (pipelineSig corpus model_name) model_name store).emb)
          (max 1 (min top_K (corpus.length - 1)))),
        (load_or_build_embeddings encode (corpus.map combine_text)
          (pipelineSig corpus model_name) model_name store).store,
        (load_or_build_embeddings encode (corpus.map combine_text)
          (pipelineSig corpus model_name) model_name store).invoked⟩ := by
  simp only [pipelineSig] at hlen
  simp only [runMain, hok, if_neg h2, hlen, ne_eq, not_true_eq_false,
    if_false, pipelineSig]
  simp

/-- C6 (row-count bound and degenerate case): with the embedding model
producing one vector per text, a normalized corpus of size below two makes
the run emit the header-only table, touch nothing, and never invoke the
model; a corpus of size at least two yields per source document exactly
`max 1 (min requested_k (N-1))` rows, which for `requested_k ≥ 1` equals
`min requested_k (N-1)`. -/
theorem row_count_bound
    (encode : List String → List (List ℚ)) (top_K : Nat) (model_name : String)
    (t : RawTable) (store : Store) (corpus : List NDoc)
    (hok : ensure_unique_and_ordered t = .ok corpus)
    (henc : ∀ ts, (encode ts).length = ts.length) :
    (corpus.length < 2 →
      runMain encode top_K model_name t store = ⟨.ok [], store, false⟩) ∧
    (2 ≤ corpus.length →
      ∃ recs, (runMain encode top_K model_name t store).result = .ok recs ∧
        ∀ u ∈ corpus.map NDoc.url,
          (recs.filter (fun r => r.source_url == u)).length =
            max 1 (min top_K (corpus.length - 1))) ∧
    (1 ≤ top_K → 2 ≤ corpus.length →
      max 1 (min top_K (corpus.length - 1)) = min top_K (corpus.length - 1)) := by
  have hmapurl : corpus.enum.map (fun a : Nat × NDoc => a.2.url) =
      corpus.map NDoc.url := by
    rw [show (fun a : Nat × NDoc => a.2.url) = (NDoc.url ∘ Prod.snd) from rfl,
      ← List.map_map, List.enum_map_snd]
  refine ⟨?_, ?_, ?_⟩
  · intro hlt
    simp only [runMain, hok, if_pos hlt]
  · intro h2
    have hn := not_lt.mpr h2
    have hlen : (load_or_build_embeddings encode (corpus.map combine_text)
        (pipelineSig corpus model_name) model_name store).emb.length =
        corpus.length := by
      rw [load_or_build_emb_length _ _ _ _ _ henc, List.length_map]
    rw [runMain_ok_unfold encode top_K model_name t store corpus hok hn hlen]
    refine ⟨_, rfl, ?_⟩
    intro u hu
    rw [recommendRows]
    apply flatMap_filter_source_count
    · intro a ha
      have ha1 : a.1 < corpus.length :=
        (List.getElem?_eq_some_iff.mp (List.mem_enum_iff_getElem?.mp ha)).1
      rw [blockFor_length, cosineMatrix_row_length _ _ (by rw [hlen]; exact ha1),
        hlen]
      have hb1 : min top_K (corpus.length - 1) ≤ corpus.length - 1 :=
        Nat.min_le_right _ _
      exact Nat.min_eq_left (max_le (by omega) (by omega))
    · intro a ha
      exact blockFor_source corpus _ _ a
    · rw [hmapurl]
      exact normalized_nodup t corpus hok
    · rw [hmapurl]
      exact hu
  · intro hk h2
    exact Nat.max_eq_right (le_min hk (by omega))

/-- Witness for C6: a three-document corpus with `TOP_K = 8` gives each
source exactly two rows, and the degenerate one-document table gives the
header-only output. -/
theorem row_count_bound_witness :
    ensure_unique_and_ordered
        ⟨["url"], [⟨some "a", none, none, none⟩, ⟨some "b", none, none, none⟩,
          ⟨some "c", none, none, none⟩]⟩ =
      .ok [⟨"a", none, none, none⟩, ⟨"b", none, none, none⟩,
        ⟨"c", none, none, none⟩] ∧
    (∃ recs,
      (runMain (fun ts => ts.map (fun _ => [1])) 8 "m"
        ⟨["url"], [⟨some "a", none, none, none⟩, ⟨some "b", none, none, none⟩,
          ⟨some "c", none, none, none⟩]⟩ .absent).result = .ok recs ∧
      ∀ u ∈ ([⟨"a", none, none, none⟩, ⟨"b", none, none, none⟩,
          (⟨"c", none, none, none⟩ : NDoc)].map NDoc.url),
        (recs.filter (fun r => r.source_url == u)).length =
          max 1 (min 8 ([⟨"a", none, none, none⟩, ⟨"b", none, none, none⟩,
            (⟨"c", none, none, none⟩ : NDoc)].length - 1))) :=
  ⟨by with_unfolding_all decide,
    (row_count_bound (fun ts => ts.map (fun _ => [1])) 8 "m"
      ⟨["url"], [⟨some "a", none, none, none⟩, ⟨some "b", none, none, none⟩,
        ⟨some "c", none, none, none⟩]⟩ .absent
      [⟨"a", none, none, none⟩, ⟨"b", none, none, none⟩, ⟨"c", none, none, none⟩]
      (by with_unfolding_all decide) (fun ts => by simp)).2.1 (by decide)⟩

/-- The argsort comparison is transitive. -/
theorem argLe_trans (xs : List ℚ) :
    ∀ a b c, argLe xs a b = true → argLe xs b c = true →
      argLe xs a c = true := by
  intro a b c hab hbc
  simp only [argLe, decide_eq_true_iff] at hab hbc ⊢
  rcases hab with h1 | ⟨e1, l1⟩ <;> rcases hbc with h2 | ⟨e2, l2⟩
  · exact Or.inl (lt_trans h1 h2)
  · exact Or.inl (e2 ▸ h1)
  · exact Or.inl (e1 ▸ h2)
  · exact Or.inr ⟨e1.trans e2, le_trans l1 l2⟩

/-- The argsort comparison is total. -/
theorem argLe_total (xs : List ℚ) :
    ∀ a b, (argLe xs a b || argLe xs b a) = true := by
  intro a b
  simp only [argLe, Bool.or_eq_true, decide_eq_true_iff]
  rcases lt_trichotomy (xs.getD a 0) (xs.getD b 0) with h | h | h
  · exact Or.inl (Or.inl h)
  · rcases Nat.le_total a b with hab | hab
    · exact Or.inl (Or.inr ⟨h, hab⟩)
    · exact Or.inr (Or.inr ⟨h.symm, hab⟩)
  · exact Or.inr (Or.inl h)

/-- The argsort is sorted for its comparison (ascending score, ties by
ascending index). -/
theorem argsortIdx_sorted (xs : List ℚ) :
    (argsortIdx xs).Pairwise (fun i j => argLe xs i j = true) := by
  rw [argsortIdx]
  exact List.sorted_mergeSort (argLe_trans xs) (argLe_total xs) _

/-- Selected indices are in range. -/
theorem topIndices_subset_range (xs : List ℚ) (k : Nat) :
    ∀ i ∈ topIndices xs k, i < xs.length := by
  intro i hi
  rw [topIndices, List.mem_reverse] at hi
  exact List.mem_range.mp ((argsortIdx_perm xs).mem_iff.mp
    (List.Sublist.mem hi (List.drop_sublist _ _)))

/-- Selected indices are pairwise distinct. -/
theorem topIndices_nodup (xs : List ℚ) (k : Nat) : (topIndices xs k).Nodup := by
  rw [topIndices, List.nodup_reverse]
  exact List.Nodup.sublist (List.drop_sublist _ _)
    ((argsortIdx_perm xs).nodup_iff.mpr (List.nodup_range _))

/-- Selected indices come out best first: descending score, ties by
descending index. -/
theorem topIndices_sorted_desc (xs : List ℚ) (k : Nat) :
    (topIndices xs k).Pairwise (fun i j => argLe xs j i = true) := by
  rw [topIndices, List.pairwise_reverse]
  exact List.Pairwise.sublist (List.drop_sublist _ _) (argsortIdx_sorted xs)

/-- Top-k property: any in-range index that is not selected compares below
(or ties below) every selected index. -/
theorem topIndices_topk (xs : List ℚ) (k j : Nat)
    (hj : j < xs.length) (hnot : j ∉ topIndices xs k) :
    ∀ i ∈ topIndices xs k, argLe xs j i = true := by
  intro i hi
  have hjmem : j ∈ argsortIdx xs :=
    (argsortIdx_perm xs).mem_iff.mpr (List.mem_range.mpr hj)
  rw [← List.take_append_drop (xs.length - k) (argsortIdx xs)] at hjmem
  have hjtake : j ∈ (argsortIdx xs).take (xs.length - k) := by
    rcases List.mem_append.mp hjmem with h | h
    · exact h
    · exact absurd (by rw [topIndices, List.mem_reverse]; exact h) hnot
  have hidrop : i ∈ (argsortIdx xs).drop (xs.length - k) := by
    rw [topIndices, List.mem_reverse] at hi
    exact hi
  have hpw := argsortIdx_sorted xs
  rw [← List.take_append_drop (xs.length - k) (argsortIdx xs)] at hpw
  exact (List.pairwise_append.mp hpw).2.2 j hjtake i hidrop

/-- C5 amended (ranking order and tie-break): for a source at corpus
position `idx` with an `N`-entry similarity row, the emitted block is
ordered descending by similarity score, and targets with exactly equal
scores are ordered by descending corpus index, i.e. descending target URL
(the reversal of the stable ascending argsort) — a fixed deterministic
rule, but the reverse of the ascending order the claim stated; moreover
the selected targets are top-k: any in-range unselected index scores no
higher than any emitted row. -/
theorem ranking_descending_ties_desc_url
    (corpus : List NDoc) (simM : List (List ℚ)) (top_k idx : Nat) (d : NDoc)
    (hurls : corpus.Pairwise (fun a b => a.url < b.url))
    (hrow : (simM.getD idx []).length = corpus.length) :
    ((blockFor corpus simM top_k (idx, d)).Pairwise (fun r1 r2 =>
        r2.similarity_score < r1.similarity_score ∨
        (r2.similarity_score = r1.similarity_score ∧
          r2.target_url < r1.target_url))) ∧
    (∀ j < corpus.length,
      j ∉ topIndices (maskSelf (simM.getD idx []) idx) top_k →
      ∀ r ∈ blockFor corpus simM top_k (idx, d),
        (maskSelf (simM.getD idx []) idx).getD j 0 ≤ r.similarity_score) := by
  have hscores : (maskSelf (simM.getD idx []) idx).length = corpus.length := by
    rw [maskSelf, List.length_set]
    exact hrow
  constructor
  · simp only [blockFor, List.pairwise_map]
    have hs := (topIndices_sorted_desc (maskSelf (simM.getD idx []) idx)
      top_k).and (topIndices_nodup (maskSelf (simM.getD idx []) idx) top_k)
    apply hs.imp_of_mem
    intro i j hi hj h
    obtain ⟨hij, hne⟩ := h
    simp only [argLe, decide_eq_true_iff] at hij
    have hiN : i < corpus.length := by
      rw [← hscores]
      exact topIndices_subset_range _ _ i hi
    have hjN : j < corpus.length := by
      rw [← hscores]
      exact topIndices_subset_range _ _ j hj
    rcases hij with hlt | ⟨heq, hle⟩
    · exact Or.inl hlt
    · refine Or.inr ⟨heq, ?_⟩
      have hji : j < i := lt_of_le_of_ne hle (fun he => hne he.symm)
      have hget := List.pairwise_iff_get.mp hurls ⟨j, hjN⟩ ⟨i, hiN⟩ hji
      show (corpus.getD j defaultDoc).url < (corpus.getD i defaultDoc).url
      rw [List.getD_eq_getElem _ _ hjN, List.getD_eq_getElem _ _ hiN]
      exact hget
  · intro j hj hnot r hr
    simp only [blockFor, List.mem_map] at hr
    obtain ⟨i, hi, rfl⟩ := hr
    have h := topIndices_topk (maskSelf (simM.getD idx []) idx) top_k j
      (by rw [hscores]; exact hj) hnot i hi
    simp only [argLe, decide_eq_true_iff] at h
    rcases h with h | ⟨he, -⟩
    · exact le_of_lt h
    · exact le_of_eq he

/-- Witness for C5 (amended) on a three-document corpus with a concrete
similarity matrix containing a tie. -/
theorem ranking_descending_ties_desc_url_witness :
    (([⟨"a", none, none, none⟩, ⟨"b", none, none, none⟩,
        (⟨"c", none, none, none⟩ : NDoc)] : List NDoc).Pairwise
      (fun a b => a.url < b.url)) ∧
    ((blockFor
        [⟨"a", none, none, none⟩, ⟨"b", none, none, none⟩, ⟨"c", none, none, none⟩]
        [[1, 1/2, 1/2], [1/2, 1, 1], [1/2, 1, 1]] 2
        (0, ⟨"a", none, none, none⟩)).Pairwise
      (fun r1 r2 => r2.similarity_score < r1.similarity_score ∨
        (r2.similarity_score = r1.similarity_score ∧
          r2.target_url < r1.target_url))) :=
  ⟨normalized_strict_sorted
      ⟨["url"], [⟨some "a", none, none, none⟩, ⟨some "b", none, none, none⟩,
        ⟨some "c", none, none, none⟩]⟩ _ (by with_unfolding_all decide),
    (ranking_descending_ties_desc_url
      [⟨"a", none, none, none⟩, ⟨"b", none, none, none⟩, ⟨"c", none, none, none⟩]
      [[1, 1/2, 1/2], [1/2, 1, 1], [1/2, 1, 1]] 2 0 ⟨"a", none, none, none⟩
      (normalized_strict_sorted
        ⟨["url"], [⟨some "a", none, none, none⟩, ⟨some "b", none, none, none⟩,
          ⟨some "c", none, none, none⟩]⟩ _ (by with_unfolding_all decide))
      (by decide)).1⟩

/-- Splitting a byte stream at its first NUL is unambiguous: NUL-free
prefixes followed by suffixes that are empty or NUL-led coincide. -/
theorem append_nul_split :
    ∀ u u2 rest rest2 : List Nat, 0 ∉ u → 0 ∉ u2 →
      (rest = [] ∨ ∃ xs, rest = 0 :: xs) →
      (rest2 = [] ∨ ∃ xs, rest2 = 0 :: xs) →
      u ++ rest = u2 ++ rest2 → u = u2 ∧ rest = rest2 := by
  intro u
  induction u with
  | nil =>
    intro u2 rest rest2 _ hu2 hr _ h
    cases u2 with
    | nil => exact ⟨rfl, h⟩
    | cons b bs =>
      exfalso
      rcases hr with rfl | ⟨xs, rfl⟩
      · simp at h
      · rw [List.nil_append, List.cons_append, List.cons.injEq] at h
        exact hu2 (h.1 ▸ List.mem_cons_self _ _)
  | cons a as ih =>
    intro u2 rest rest2 hu hu2 hr hr2 h
    cases u2 with
    | nil =>
      exfalso
      rcases hr2 with rfl | ⟨xs, rfl⟩
      · simp at h
      · rw [List.nil_append, List.cons_append, List.cons.injEq] at h
        exact hu (h.1 ▸ List.mem_cons_self _ _)
    | cons b bs =>
      rw [List.cons_append, List.cons_append, List.cons.injEq] at h
      obtain ⟨rfl, h2⟩ := h
      obtain ⟨he, hr⟩ := ih bs rest rest2
        (fun hm => hu (List.mem_cons_of_mem _ hm))
        (fun hm => hu2 (List.mem_cons_of_mem _ hm)) hr hr2 h2
      exact ⟨by rw [he], hr⟩

/-- The record stream of a pair list is empty or starts with a NUL. -/
theorem pairsStream_shape (ps : List (List Nat × List Nat)) :
    ps.flatMap (fun p => 0 :: (p.1 ++ 0 :: p.2)) = [] ∨
      ∃ xs, ps.flatMap (fun p => 0 :: (p.1 ++ 0 :: p.2)) = 0 :: xs := by
  cases ps with
  | nil => exact Or.inl rfl
  | cons p ps =>
    exact Or.inr ⟨(p.1 ++ 0 :: p.2) ++
      ps.flatMap (fun p => 0 :: (p.1 ++ 0 :: p.2)), by
        rw [List.flatMap_cons]; rfl⟩

/-- On NUL-free fields, the NUL-delimited record stream is injective. -/
theorem pairsStream_inj :
    ∀ ps ps2 : List (List Nat × List Nat),
      (∀ p ∈ ps, 0 ∉ p.1 ∧ 0 ∉ p.2) → (∀ p ∈ ps2, 0 ∉ p.1 ∧ 0 ∉ p.2) →
      ps.flatMap (fun p => 0 :: (p.1 ++ 0 :: p.2)) =
        ps2.flatMap (fun p => 0 :: (p.1 ++ 0 :: p.2)) → ps = ps2 := by
  intro ps
  induction ps with
  | nil =>
    intro ps2 _ _ h
    cases ps2 with
    | nil => rfl
    | cons q qs => rw [List.flatMap_cons] at h; cases h
  | cons p ps ih =>
    intro ps2 h1 h2 h
    cases ps2 with
    | nil => rw [List.flatMap_cons] at h; cases h
    | cons q qs =>
      rw [List.flatMap_cons, List.flatMap_cons] at h
      simp only [List.cons_append, List.cons.injEq, List.append_assoc,
        true_and] at h
      obtain ⟨h1u, hrest⟩ := append_nul_split p.1 q.1 _ _
        (h1 p (List.mem_cons_self _ _)).1 (h2 q (List.mem_cons_self _ _)).1
        (Or.inr ⟨_, rfl⟩) (Or.inr ⟨_, rfl⟩) h
      rw [List.cons.injEq] at hrest
      obtain ⟨h2u, hSS⟩ := append_nul_split p.2 q.2 _ _
        (h1 p (List.mem_cons_self _ _)).2 (h2 q (List.mem_cons_self _ _)).2
        (pairsStream_shape ps) (pairsStream_shape qs) hrest.2
      rw [List.cons.injEq]
      refine ⟨Prod.ext h1u h2u, ?_⟩
      exact ih qs (fun r hr => h1 r (List.mem_cons_of_mem _ hr))
        (fun r hr => h2 r (List.mem_cons_of_mem _ hr)) hSS

/-- On NUL-free model names and fields, the full hashed byte stream is
injective in the model identifier and the pair sequence. -/
theorem sigStream_inj (m m2 : List Nat)
    (ps ps2 : List (List Nat × List Nat))
    (hm : 0 ∉ m) (hm2 : 0 ∉ m2)
    (hp : ∀ p ∈ ps, 0 ∉ p.1 ∧ 0 ∉ p.2)
    (hp2 : ∀ p ∈ ps2, 0 ∉ p.1 ∧ 0 ∉ p.2) :
    sigStream m ps = sigStream m2 ps2 → m = m2 ∧ ps = ps2 := by
  intro h
  rw [sigStream, sigStream] at h
  obtain ⟨h1, h2⟩ := append_nul_split m m2 _ _ hm hm2
    (pairsStream_shape ps) (pairsStream_shape ps2) h
  exact ⟨h1, pairsStream_inj ps ps2 hp hp2 h2⟩

/-- Little-endian byte rendering has the requested length. -/
theorem toLE_length : ∀ n x, (MD5.toLE n x).length = n := by
  intro n
  induction n with
  | zero => intro x; rfl
  | succ n ih => intro x; simp [MD5.toLE, ih]

/-- Little-endian byte rendering emits bytes. -/
theorem toLE_lt : ∀ n x, ∀ b ∈ MD5.toLE n x, b < 256 := by
  intro n
  induction n with
  | zero => intro x b hb; cases hb
  | succ n ih =>
    intro x b hb
    rw [MD5.toLE] at hb
    rcases List.mem_cons.mp hb with rfl | hb
    · exact Nat.mod_lt _ (by norm_num)
    · exact ih _ b hb

/-- An MD5 digest is 16 bytes. -/
theorem md5Bytes_length (msg : List Nat) : (MD5.md5Bytes msg).length = 16 := by
  rw [MD5.md5Bytes]
  simp [toLE_length]

/-- Every MD5 digest entry is a byte value. -/
theorem md5Bytes_lt (msg : List Nat) : ∀ b ∈ MD5.md5Bytes msg, b < 256 := by
  intro b hb
  rw [MD5.md5Bytes] at hb
  simp only [List.mem_append] at hb
  rcases hb with ((hb | hb) | hb) | hb <;> exact toLE_lt _ _ b hb

/-- Hex digits of values below 16 are lowercase hex characters. -/
theorem hexChar_mem (n : Nat) (h : n < 16) :
    MD5.hexChar n ∈ "0123456789abcdef".toList := by
  rw [MD5.hexChar, List.getD_eq_getElem _ _ (by simpa using h)]
  exact List.getElem_mem _

/-- `hexdigest` is a 32-character string over the lowercase hex alphabet. -/
theorem hexdigest_format (msg : List Nat) :
    (MD5.hexdigest msg).length = 32 ∧
      ∀ c ∈ (MD5.hexdigest msg).toList, c ∈ "0123456789abcdef".toList := by
  have hflat : ∀ l : List Nat, (l.flatMap MD5.byteHex).length = 2 * l.length := by
    intro l
    induction l with
    | nil => rfl
    | cons b bs ih =>
      rw [List.flatMap_cons, List.length_append, ih]
      simp [MD5.byteHex]
      omega
  constructor
  · rw [MD5.hexdigest, String.length_mk, hflat, md5Bytes_length]
  · intro c hc
    rw [MD5.hexdigest] at hc
    have hc2 : c ∈ (MD5.md5Bytes msg).flatMap MD5.byteHex := hc
    obtain ⟨b, hb, hcb⟩ := List.mem_flatMap.mp hc2
    have hblt : b < 256 := md5Bytes_lt msg b hb
    rw [MD5.byteHex] at hcb
    rcases List.mem_cons.mp hcb with rfl | hcb
    · exact hexChar_mem _ (by omega)
    · rcases List.mem_cons.mp hcb with rfl | hcb
      · exact hexChar_mem _ (Nat.mod_lt _ (by norm_num))
      · cases hcb

/-- C3 amended (signature encoding): the hashed stream is seeded with the
model identifier and NUL-delimits each field of each zipped (URL, text)
pair, so — provided the model identifier, URLs and texts contain no NUL
byte, which the counterexample shows is necessary — distinct inputs feed
distinct byte streams (in particular ("ab","c") versus ("a","bc")), and
the signature is a 32-character lowercase-hexadecimal string. -/
theorem dataset_signature_encoding
    (urls texts urls2 texts2 : List (List Nat)) (m m2 : List Nat)
    (hlen : urls.length = texts.length) (hlen2 : urls2.length = texts2.length)
    (hurls : ∀ u ∈ urls, 0 ∉ u) (htexts : ∀ x ∈ texts, 0 ∉ x)
    (hurls2 : ∀ u ∈ urls2, 0 ∉ u) (htexts2 : ∀ x ∈ texts2, 0 ∉ x)
    (hm : 0 ∉ m) (hm2 : 0 ∉ m2) :
    ((urls, texts, m) ≠ (urls2, texts2, m2) →
      sigStream m (urls.zip texts) ≠ sigStream m2 (urls2.zip texts2)) ∧
    (dataset_signature urls texts m).length = 32 ∧
    (∀ c ∈ (dataset_signature urls texts m).toList,
      c ∈ "0123456789abcdef".toList) := by
  refine ⟨?_, (hexdigest_format _).1, (hexdigest_format _).2⟩
  intro hne heq
  have hp : ∀ p ∈ urls.zip texts, 0 ∉ p.1 ∧ 0 ∉ p.2 := by
    rintro ⟨a, b⟩ hab
    obtain ⟨ha, hb⟩ := List.of_mem_zip hab
    exact ⟨hurls a ha, htexts b hb⟩
  have hp2 : ∀ p ∈ urls2.zip texts2, 0 ∉ p.1 ∧ 0 ∉ p.2 := by
    rintro ⟨a, b⟩ hab
    obtain ⟨ha, hb⟩ := List.of_mem_zip hab
    exact ⟨hurls2 a ha, htexts2 b hb⟩
  obtain ⟨hmm, hzip⟩ := sigStream_inj m m2 _ _ hm hm2 hp hp2 heq
  have huz := congrArg List.unzip hzip
  rw [List.unzip_zip hlen, List.unzip_zip hlen2, Prod.ext_iff] at huz
  exact hne (by
    rw [Prod.ext_iff, Prod.ext_iff]
    exact ⟨huz.1, huz.2, hmm⟩)

/-- Witness for C3 (amended): the pair ("ab","c") and the pair ("a","bc")
feed different byte streams, and a concrete signature is 32 lowercase hex
characters. -/
theorem dataset_signature_encoding_witness :
    (∀ u ∈ ([[97, 98]] : List (List Nat)), 0 ∉ u) ∧
    sigStream [109] ([[97, 98]].zip [[99]]) ≠
      sigStream [109] ([[97]].zip [[98, 99]]) ∧
    (dataset_signature [[97, 98]] [[99]] [109]).length = 32 :=
  ⟨by decide,
    (dataset_signature_encoding [[97, 98]] [[99]] [[97]] [[98, 99]] [109] [109]
      rfl rfl (by decide) (by decide) (by decide) (by decide) (by decide)
      (by decide)).1 (by decide),
    (dataset_signature_encoding [[97, 98]] [[99]] [[97]] [[98, 99]] [109] [109]
      rfl rfl (by decide) (by decide) (by decide) (by decide) (by decide)
      (by decide)).2.1⟩
